import Mathlib

/-!
Shallow embedding of the leakage-safe cross-validation core of the
Machine_Learning-based_Quantitative_Trading_Strategies repository.

Embedded modules:
- `src/core/backtesting/cpcv_splitter.py` (namespace `Backtesting`):
  the combinatorial purged cross-validation splitter, with the free
  functions `apply_purging`, `apply_time_based_purging`, `apply_embargo`.
- `src/core/rolling_horizon_splitter.py` (namespace `RollingHorizon`):
  a rolling-window splitter (while-loop formulation) and a stub
  `CPCVSplitter` class whose `split` raises `NotImplementedError`.
- `src/core/data_splitter.py` (namespace `DataSplitter`):
  the second rolling-window splitter (start-position-list formulation),
  which raises `ValueError` when the dataset is too small.

Row positions are natural numbers; an index array (`np.ndarray` of
positions) is a `List Nat` in the order numpy produces it.  Python
integers (which may be negative: window parameters are unchecked) are
`Int`.  Timestamps in the interval metadata are `Int` (a timestamp
ordering; only order and `min` are used by the code).  Raised Python
exceptions are the `Except` error branch with a `PyError` tag.
-/

/-- Error tags for the Python exceptions the embedded code can raise. -/
inductive PyError where
  | valueError
  | notImplementedError
  deriving DecidableEq, Repr

/-- Interval metadata (the `barrier_times` DataFrame): for each row
position, an entry time `t0` and an exit time `t1`. -/
structure BarrierTimes where
  t0 : Nat → Int
  t1 : Nat → Int

namespace Backtesting

/-- Configuration stored by `CPCVSplitter.__init__` in
`src/core/backtesting/cpcv_splitter.py` (all four are Python ints). -/
structure CPCVConfig where
  n_blocks : Int
  n_test_blocks : Int
  purge_window : Int
  embargo_window : Int
  deriving DecidableEq, Repr

/-- Embedding of `CPCVSplitter.__init__` (cpcv_splitter.py lines 36-58):
the only validation is `n_test_blocks >= n_blocks -> raise ValueError`. -/
def CPCVSplitter.init (n_blocks n_test_blocks purge_window embargo_window : Int) :
    Except PyError CPCVConfig :=
  if n_test_blocks ≥ n_blocks then .error .valueError
  else .ok ⟨n_blocks, n_test_blocks, purge_window, embargo_window⟩

/-- Embedding of `apply_purging` (cpcv_splitter.py lines 125-164):
`test_start = barrier_times.iloc[test_idx]["t0"].min()`, then keep the
train rows with `t1 <= test_start`.  Pandas `.min()` over an empty
selection has no value; that case is embedded as the empty result (it is
never reached by `split`, whose test sets are nonempty). -/
def apply_purging (train_idx test_idx : List Nat) (barrier_times : BarrierTimes) :
    List Nat :=
  match (test_idx.map barrier_times.t0).min? with
  | none => []
  | some test_start =>
      train_idx.filter (fun p => decide (barrier_times.t1 p ≤ test_start))

/-- Embedding of `apply_time_based_purging` (cpcv_splitter.py lines
167-192): `purge_threshold = test_idx.min() - purge_window`, keep the
train rows strictly below the threshold (Python int arithmetic, so the
threshold may be negative: the comparison is over `Int`). -/
def apply_time_based_purging (train_idx test_idx : List Nat) (purge_window : Int) :
    List Nat :=
  match test_idx.min? with
  | none => []
  | some test_start =>
      train_idx.filter (fun p => decide ((p : Int) < (test_start : Int) - purge_window))

/-- Embedding of `apply_embargo` (cpcv_splitter.py lines 195-229):
`embargo_threshold = test_idx.max() + embargo_window`, keep train rows
with `p < test_idx.min()` or `p > embargo_threshold`. -/
def apply_embargo (train_idx test_idx : List Nat) (embargo_window : Int) :
    List Nat :=
  match test_idx.max?, test_idx.min? with
  | some test_end, some test_start =>
      train_idx.filter (fun p =>
        decide ((p : Int) < (test_start : Int) ∨
          (p : Int) > (test_end : Int) + embargo_window))
  | _, _ => []

/-- Embedding of the block construction in `CPCVSplitter.split`
(cpcv_splitter.py lines 81-89): `block_size = n_samples // n_blocks`;
block `i` is `np.arange(i*block_size, (i+1)*block_size)` except the last
block, which runs to `n_samples`. -/
def block_indices (n_samples n_blocks : Nat) : List (List Nat) :=
  (List.range n_blocks).map (fun i =>
    List.range' (i * (n_samples / n_blocks))
      ((if i < n_blocks - 1 then (i + 1) * (n_samples / n_blocks) else n_samples) -
        i * (n_samples / n_blocks)))

/-- Embedding of `itertools.combinations` over a list: all length-`k`
subsequences, emitted in lexicographic order of the chosen positions
(the documented emission order of `itertools.combinations`). -/
def combinations : Nat → List Nat → List (List Nat)
  | 0, _ => [[]]
  | _ + 1, [] => []
  | k + 1, x :: xs => ((combinations k xs).map (fun c => x :: c)) ++ combinations (k + 1) xs

/-- Embedding of the per-combination candidate construction in
`CPCVSplitter.split` (cpcv_splitter.py lines 92-98): the test index
array is the concatenation of the chosen blocks, the candidate train
index array the concatenation of the remaining blocks, both in block
order.  Returns `(candidate_train_idx, test_idx)` before filtering. -/
def CPCV_fold (blocks : List (List Nat)) (n_blocks : Nat) (test_blocks : List Nat) :
    List Nat × List Nat :=
  let test_idx := (test_blocks.map (fun i => blocks.getD i [])).flatten
  let train_blocks := (List.range n_blocks).filter (fun i => decide (i ∉ test_blocks))
  let train_idx := (train_blocks.map (fun i => blocks.getD i [])).flatten
  (train_idx, test_idx)

/-- Embedding of `CPCVSplitter.split` (cpcv_splitter.py lines 60-122):
for each combination of `n_test_blocks` of the `n_blocks` blocks, build
the candidate fold, purge (metadata-driven when `barrier_times` is
present, position-based otherwise), then embargo, and yield
`(train_idx, test_idx)`.  The lazily yielded sequence is embedded as the
list of folds in yield order. -/
def CPCVSplitter.split (n_blocks n_test_blocks : Nat) (purge_window embargo_window : Int)
    (n_samples : Nat) (barrier_times : Option BarrierTimes) :
    List (List Nat × List Nat) :=
  let blocks := block_indices n_samples n_blocks
  (combinations n_test_blocks (List.range n_blocks)).map (fun test_blocks =>
    let fold := CPCV_fold blocks n_blocks test_blocks
    let purged :=
      match barrier_times with
      | some bt => apply_purging fold.1 fold.2 bt
      | none => apply_time_based_purging fold.1 fold.2 purge_window
    (apply_embargo purged fold.2 embargo_window, fold.2))

end Backtesting

namespace RollingHorizon

/-- Embedding of the `latest_first` while-loop of
`RollingHorizonSplitter.split` in `src/core/rolling_horizon_splitter.py`
(lines 63-78): while `current_end - horizon - batch_unit >= 0`, yield
train `[current_end-horizon-batch_unit, current_end-horizon)` and test
`[current_end-horizon, current_end)`, then set
`current_end = train_start`.  The extra `0 < batch_unit + horizon` guard
terminates the embedding where the source loop would iterate forever
(yielding empty folds) when both widths are zero. -/
def splitLatest (batch_unit horizon : Nat) (current_end : Nat) :
    List (List Nat × List Nat) :=
  if h : batch_unit + horizon ≤ current_end ∧ 0 < batch_unit + horizon then
    (List.range' (current_end - horizon - batch_unit) batch_unit,
      List.range' (current_end - horizon) horizon) ::
      splitLatest batch_unit horizon (current_end - horizon - batch_unit)
  else []
termination_by current_end
decreasing_by omega

/-- Embedding of the forward while-loop of `RollingHorizonSplitter.split`
in `src/core/rolling_horizon_splitter.py` (lines 79-94): while
`current_start + batch_unit + horizon <= n_samples`, yield train
`[current_start, current_start+batch_unit)` and the following test
window, then set `current_start = test_end`.  Same termination guard as
`splitLatest`. -/
def splitOldest (batch_unit horizon : Nat) (n_samples : Nat) (current_start : Nat) :
    List (List Nat × List Nat) :=
  if h : current_start + batch_unit + horizon ≤ n_samples ∧ 0 < batch_unit + horizon then
    (List.range' current_start batch_unit,
      List.range' (current_start + batch_unit) horizon) ::
      splitOldest batch_unit horizon n_samples (current_start + batch_unit + horizon)
  else []
termination_by n_samples - current_start
decreasing_by omega

/-- Embedding of `RollingHorizonSplitter.split` in
`src/core/rolling_horizon_splitter.py` (lines 43-94): dispatch on
`latest_first`.  Note the source raises nothing for small datasets: both
loops simply yield no fold. -/
def RollingHorizonSplitter.split (batch_unit horizon : Nat) (latest_first : Bool)
    (n_samples : Nat) : List (List Nat × List Nat) :=
  if latest_first then splitLatest batch_unit horizon n_samples
  else splitOldest batch_unit horizon n_samples 0

/-- Configuration stored by the stub `CPCVSplitter.__init__` in
`src/core/rolling_horizon_splitter.py` (lines 111-130): all four Python
ints are stored with no validation whatsoever. -/
structure RhCPCVConfig where
  n_blocks : Int
  n_test_blocks : Int
  purge_window : Int
  embargo_window : Int
  deriving DecidableEq, Repr

/-- Embedding of the stub `CPCVSplitter.__init__`
(rolling_horizon_splitter.py lines 111-130): total, no checks. -/
def CPCVSplitter.init (n_blocks n_test_blocks purge_window embargo_window : Int) :
    RhCPCVConfig :=
  ⟨n_blocks, n_test_blocks, purge_window, embargo_window⟩

/-- Embedding of the stub `CPCVSplitter.split`
(rolling_horizon_splitter.py lines 132-151): raises
`NotImplementedError` for every input. -/
def CPCVSplitter.split (_cfg : RhCPCVConfig) (_n_samples : Nat) :
    Except PyError (List (List Nat × List Nat)) :=
  .error .notImplementedError

end RollingHorizon

namespace DataSplitter

/-- Embedding of Python `range(start, -1, -step)` over naturals for
`0 < step`: `start, start-step, ...` down to the last value `≥ 0`.
For `step = 0` the source raises (`range` rejects a zero step); the
embedding returns `[]` and is only ever used with `0 < step`. -/
def range_down (step : Nat) (start : Nat) : List Nat :=
  if h : 0 < step then
    start :: (if hs : step ≤ start then range_down step (start - step) else [])
  else []
termination_by start
decreasing_by omega

/-- Embedding of `RollingHorizonSplitter.split` in
`src/core/data_splitter.py` (lines 71-118): raise `ValueError` when
`total_size < batch_unit + horizon`; otherwise build the list of window
start positions (stepping by `horizon`, backwards from
`total_size - window_size` when `latest_first`, forwards from 0
otherwise) and yield, per start `s`, train `[s, s+batch_unit)` and test
`[s+batch_unit, s+batch_unit+horizon)`.  The forward start list
`range(0, total_size - window_size + 1, horizon)` is embedded with its
element count `(total_size - window_size) / horizon + 1` (the embedding
is used with `0 < horizon`; `horizon = 0` makes the source raise inside
`range`). -/
def RollingHorizonSplitter.split (batch_unit horizon : Nat) (latest_first : Bool)
    (total_size : Nat) : Except PyError (List (List Nat × List Nat)) :=
  if total_size < batch_unit + horizon then .error .valueError
  else
    let start_positions :=
      if latest_first then range_down horizon (total_size - (batch_unit + horizon))
      else List.range' 0 ((total_size - (batch_unit + horizon)) / horizon + 1) horizon
    .ok (start_positions.map (fun s =>
      (List.range' s batch_unit, List.range' (s + batch_unit) horizon)))

end DataSplitter

/-- Interval metadata of spec Scenario B and of the repository test
`test_purging`: `t0` is the row position (as a day number) and
`t1 = t0 + 5` days. -/
def dayBarrier : BarrierTimes :=
  ⟨fun p => (p : Int), fun p => (p : Int) + 5⟩

/-- Minimum characterization for lists of integers (pandas `.min()` on a
nonempty column returns the least element). -/
theorem int_min?_iff {a : Int} {xs : List Int} :
    xs.min? = some a ↔ a ∈ xs ∧ ∀ b ∈ xs, a ≤ b := by
  haveI : Std.Antisymm (fun x1 x2 : Int => x1 ≤ x2) :=
    ⟨fun h1 h2 => le_antisymm h1 h2⟩
  exact List.min?_eq_some_iff (fun x => le_refl x) (fun x y => min_choice x y)
    (fun _ _ _ => le_min_iff)

/-- Maximum characterization for lists of integers. -/
theorem int_max?_iff {a : Int} {xs : List Int} :
    xs.max? = some a ↔ a ∈ xs ∧ ∀ b ∈ xs, b ≤ a := by
  haveI : Std.Antisymm (fun x1 x2 : Int => x1 ≤ x2) :=
    ⟨fun h1 h2 => le_antisymm h1 h2⟩
  exact List.max?_eq_some_iff (fun x => le_refl x) (fun x y => max_choice x y)
    (fun _ _ _ => max_le_iff)

/-- C1: metadata-driven purging retains exactly the train positions `p`
with `t1[p] ≤ test_entry_min`, where `test_entry_min` is the least `t0`
over the test positions (the hypothesis characterizes it as such); the
tie `t1[p] = test_entry_min` is retained since the comparison is `≤`.
On Scenario B data (`t0 = day of position`, `t1 = t0 + 5`, test
`[50..69]`, candidate train `[0..49] ∪ [70..99]`) exactly positions
`0..45` survive. -/
theorem purging_retain_rule (tr te : List Nat) (bt : BarrierTimes) (m : Int)
    (hm : (te.map bt.t0).min? = some m) :
    ((∃ q ∈ te, bt.t0 q = m) ∧ (∀ q ∈ te, m ≤ bt.t0 q) ∧
      (∀ p, p ∈ Backtesting.apply_purging tr te bt ↔ p ∈ tr ∧ bt.t1 p ≤ m)) ∧
    Backtesting.apply_purging (List.range 50 ++ List.range' 70 30)
      (List.range' 50 20) dayBarrier = List.range 46 := by
  obtain ⟨hmem, hlb⟩ := int_min?_iff.mp hm
  refine ⟨⟨?_, ?_, ?_⟩, by decide⟩
  · obtain ⟨q, hq, hq2⟩ := List.mem_map.mp hmem
    exact ⟨q, hq, hq2⟩
  · exact fun q hq => hlb _ (List.mem_map_of_mem _ hq)
  · intro p
    unfold Backtesting.apply_purging
    rw [hm]
    simp [List.mem_filter]

/-- Witness for C1 at a concrete instance: `te = [2]`, metadata
`dayBarrier`, minimum entry time 2. -/
theorem purging_retain_rule_witness :
    ((∃ q ∈ ([2] : List Nat), dayBarrier.t0 q = 2) ∧
      (∀ q ∈ ([2] : List Nat), (2 : Int) ≤ dayBarrier.t0 q) ∧
      (∀ p, p ∈ Backtesting.apply_purging [0, 1, 2] [2] dayBarrier ↔
        p ∈ ([0, 1, 2] : List Nat) ∧ dayBarrier.t1 p ≤ 2)) ∧
    Backtesting.apply_purging (List.range 50 ++ List.range' 70 30)
      (List.range' 50 20) dayBarrier = List.range 46 :=
  purging_retain_rule [0, 1, 2] [2] dayBarrier 2 (by decide)

/-- C2: the embargo filter retains a train position `p` exactly when
`p < test_start` or `p > test_end + embargo_window` (`test_start` and
`test_end` are the min and max of the nonempty test set, as the
hypotheses state); the boundary `p = test_end + embargo_window` is
excluded, and no retained position lies in
`[test_start, test_end + embargo_window]`.  On Scenario C data
(train `0..99`, test `50..69`, window 5) positions
`{0..49} ∪ {75..99}` survive. -/
theorem embargo_retain_rule (tr te : List Nat) (ew : Int) (mn mx : Nat)
    (hew : 0 ≤ ew) (hmn : te.min? = some mn) (hmx : te.max? = some mx) :
    ((∀ p, p ∈ Backtesting.apply_embargo tr te ew ↔
        p ∈ tr ∧ ((p : Int) < (mn : Int) ∨ (p : Int) > (mx : Int) + ew)) ∧
      (∀ p : Nat, (p : Int) = (mx : Int) + ew →
        p ∉ Backtesting.apply_embargo tr te ew) ∧
      (∀ p ∈ Backtesting.apply_embargo tr te ew,
        ¬((mn : Int) ≤ (p : Int) ∧ (p : Int) ≤ (mx : Int) + ew))) ∧
    Backtesting.apply_embargo (List.range 100) (List.range' 50 20) 5 =
      List.range 50 ++ List.range' 75 25 := by
  have hmnx : mn ≤ mx := by
    obtain ⟨hmm, -⟩ := List.min?_eq_some_iff'.mp hmn
    exact (List.max?_eq_some_iff'.mp hmx).2 _ hmm
  have hmem : ∀ p, p ∈ Backtesting.apply_embargo tr te ew ↔
      p ∈ tr ∧ ((p : Int) < (mn : Int) ∨ (p : Int) > (mx : Int) + ew) := by
    intro p
    unfold Backtesting.apply_embargo
    rw [hmx, hmn]
    simp [List.mem_filter]
  refine ⟨⟨hmem, ?_, ?_⟩, by decide⟩
  · intro p hpb hpm
    rcases ((hmem p).mp hpm).2 with h1 | h2 <;> omega
  · intro p hpm hbad
    rcases ((hmem p).mp hpm).2 with h1 | h2 <;> omega

/-- Witness for C2 at a concrete instance: test `[3, 5]`, window 1. -/
theorem embargo_retain_rule_witness :
    ((∀ p, p ∈ Backtesting.apply_embargo [0, 9] [3, 5] 1 ↔
        p ∈ ([0, 9] : List Nat) ∧ ((p : Int) < (3 : Nat) ∨ (p : Int) > ((5 : Nat) : Int) + 1)) ∧
      (∀ p : Nat, (p : Int) = ((5 : Nat) : Int) + 1 →
        p ∉ Backtesting.apply_embargo [0, 9] [3, 5] 1) ∧
      (∀ p ∈ Backtesting.apply_embargo [0, 9] [3, 5] 1,
        ¬(((3 : Nat) : Int) ≤ (p : Int) ∧ (p : Int) ≤ ((5 : Nat) : Int) + 1))) ∧
    Backtesting.apply_embargo (List.range 100) (List.range' 50 20) 5 =
      List.range 50 ++ List.range' 75 25 :=
  embargo_retain_rule [0, 9] [3, 5] 1 3 5 (by decide) (by decide) (by decide)

/-- C6 counterexample: the combinatorial splitter constructor accepts
`n_test_blocks = 0` (with positive `n_blocks`) and non-positive
purge/embargo windows without raising — only `n_test_blocks ≥ n_blocks`
is rejected — so the claim that these raise at construction is false. -/
theorem cpcv_init_missing_checks :
    Backtesting.CPCVSplitter.init 10 0 5 3 = .ok ⟨10, 0, 5, 3⟩ ∧
    Backtesting.CPCVSplitter.init 10 (-2) 5 3 = .ok ⟨10, -2, 5, 3⟩ ∧
    Backtesting.CPCVSplitter.init 10 2 (-5) (-3) = .ok ⟨10, 2, -5, -3⟩ := by
  refine ⟨?_, ?_, ?_⟩ <;> rfl

/-- C6 amended: construction validates exactly one relationship —
it raises (ValueError) precisely when `n_test_blocks ≥ n_blocks`, before
any fold is produced; every other configuration, including
`n_test_blocks ≤ 0` and non-positive windows, is stored unvalidated. -/
theorem cpcv_init_validation (nb ntb pw ew : Int) :
    (Backtesting.CPCVSplitter.init nb ntb pw ew = .error .valueError ↔ nb ≤ ntb) ∧
    (ntb < nb →
      Backtesting.CPCVSplitter.init nb ntb pw ew = .ok ⟨nb, ntb, pw, ew⟩) := by
  unfold Backtesting.CPCVSplitter.init
  constructor
  · split <;> simp_all <;> omega
  · intro h
    split <;> simp_all <;> omega

/-- Witness for C6 amended at `n_blocks = 10`, `n_test_blocks = 2`. -/
theorem cpcv_init_validation_witness :
    (Backtesting.CPCVSplitter.init 10 2 5 3 = .error .valueError ↔ (10 : Int) ≤ 2) ∧
    ((2 : Int) < 10 →
      Backtesting.CPCVSplitter.init 10 2 5 3 = .ok ⟨10, 2, 5, 3⟩) :=
  cpcv_init_validation 10 2 5 3

/-- The backward start-position list of data_splitter.py is never empty
(for a positive step it always contains its first element). -/
theorem range_down_ne_nil (step st : Nat) (hs : 0 < step) :
    DataSplitter.range_down step st ≠ [] := by
  rw [DataSplitter.range_down]
  simp [hs]

/-- C7 counterexample: on a dataset of 100 rows with
`batch_unit = 200, horizon = 5` (so `N < batch_unit + horizon`), the
splitter of rolling_horizon_splitter.py raises nothing and silently
yields the empty fold sequence, in both directions. -/
theorem rolling_insufficient_silent :
    RollingHorizon.RollingHorizonSplitter.split 200 5 true 100 = [] ∧
    RollingHorizon.RollingHorizonSplitter.split 200 5 false 100 = [] := by
  constructor <;>
    simp [RollingHorizon.RollingHorizonSplitter.split, RollingHorizon.splitLatest,
      RollingHorizon.splitOldest]

/-- C7 amended: when `N < batch_unit + horizon`, the data_splitter.py
splitter raises ValueError at split-call time before yielding any fold,
while the rolling_horizon_splitter.py splitter raises nothing and yields
the empty sequence; with sufficient data (and positive horizon) the
data_splitter.py splitter yields a nonempty fold sequence. -/
theorem insufficient_data_behavior (b h : Nat) (lf : Bool) (N : Nat) :
    (N < b + h →
      DataSplitter.RollingHorizonSplitter.split b h lf N = .error .valueError) ∧
    (N < b + h → RollingHorizon.RollingHorizonSplitter.split b h lf N = []) ∧
    (0 < h → b + h ≤ N → ∃ folds,
      DataSplitter.RollingHorizonSplitter.split b h lf N = .ok folds ∧ folds ≠ []) := by
  refine ⟨?_, ?_, ?_⟩
  · intro hlt
    unfold DataSplitter.RollingHorizonSplitter.split
    simp [hlt]
  · intro hlt
    have h1 : ¬(b + h ≤ N) := by omega
    have h2 : ¬(0 + b + h ≤ N) := by omega
    unfold RollingHorizon.RollingHorizonSplitter.split
    cases lf <;>
      simp [RollingHorizon.splitLatest, RollingHorizon.splitOldest, h1, h2]
  · intro hh hle
    have hnlt : ¬(N < b + h) := by omega
    unfold DataSplitter.RollingHorizonSplitter.split
    simp only [hnlt, if_false]
    refine ⟨_, rfl, ?_⟩
    cases lf
    · simp
    · simp only [if_true, ne_eq, List.map_eq_nil_iff]
      exact range_down_ne_nil h (N - (b + h)) hh

/-- Witness for C7 amended at `batch_unit = 200, horizon = 5, N = 100`
(insufficient) — both implications discharged at a concrete input. -/
theorem insufficient_data_behavior_witness :
    (100 < 200 + 5 →
      DataSplitter.RollingHorizonSplitter.split 200 5 true 100 = .error .valueError) ∧
    (100 < 200 + 5 → RollingHorizon.RollingHorizonSplitter.split 200 5 true 100 = []) ∧
    (0 < 5 → 200 + 5 ≤ 100 → ∃ folds,
      DataSplitter.RollingHorizonSplitter.split 200 5 true 100 = .ok folds ∧
        folds ≠ []) :=
  insufficient_data_behavior 200 5 true 100

/-- C10: the second class named CPCVSplitter, in
rolling_horizon_splitter.py, stores any configuration unvalidated
(including `n_test_blocks ≥ n_blocks`) and its split raises
NotImplementedError for every input, never yielding a fold. -/
theorem rh_cpcv_stub (nb ntb pw ew : Int) (n : Nat) :
    RollingHorizon.CPCVSplitter.init nb ntb pw ew = ⟨nb, ntb, pw, ew⟩ ∧
    RollingHorizon.CPCVSplitter.split (RollingHorizon.CPCVSplitter.init nb ntb pw ew) n =
      .error .notImplementedError ∧
    ∀ folds, RollingHorizon.CPCVSplitter.split
      (RollingHorizon.CPCVSplitter.init nb ntb pw ew) n ≠ .ok folds := by
  refine ⟨rfl, rfl, fun folds hok => ?_⟩
  exact absurd hok (by simp [RollingHorizon.CPCVSplitter.split])

/-- Witness for C10 at a configuration with `n_test_blocks > n_blocks`. -/
theorem rh_cpcv_stub_witness :
    RollingHorizon.CPCVSplitter.init 2 5 (-1) 0 = ⟨2, 5, -1, 0⟩ ∧
    RollingHorizon.CPCVSplitter.split (RollingHorizon.CPCVSplitter.init 2 5 (-1) 0) 7 =
      .error .notImplementedError ∧
    ∀ folds, RollingHorizon.CPCVSplitter.split
      (RollingHorizon.CPCVSplitter.init 2 5 (-1) 0) 7 ≠ .ok folds :=
  rh_cpcv_stub 2 5 (-1) 0 7

/-- The splitter builds one block per block index. -/
theorem blocks_length (N B : Nat) : (Backtesting.block_indices N B).length = B := by
  simp [Backtesting.block_indices]

/-- Concatenating `m` consecutive width-`s` position ranges gives the
single range `[0, m*s)`. -/
theorem flatten_map_range' (s : Nat) :
    ∀ m, ((List.range m).map (fun i => List.range' (i * s) s)).flatten =
      List.range' 0 (m * s) := by
  intro m
  induction m with
  | zero => simp
  | succ m ih =>
    rw [List.range_succ, List.map_append, List.flatten_append, ih]
    have h := List.range'_append 0 (m * s) s 1
    simp only [one_mul, zero_add] at h
    simp only [List.map_cons, List.map_nil, List.flatten_cons, List.flatten_nil,
      List.append_nil]
    rw [h]
    congr 1
    rw [Nat.succ_mul]
    omega

/-- The `i`-th block, by direct index computation. -/
theorem block_get (N B i : Nat) (hi : i < B) :
    (Backtesting.block_indices N B).getD i [] =
      List.range' (i * (N / B))
        ((if i < B - 1 then (i + 1) * (N / B) else N) - i * (N / B)) := by
  have hlen : i < (Backtesting.block_indices N B).length := by
    rw [blocks_length]; exact hi
  rw [List.getD_eq_getElem _ _ hlen]
  unfold Backtesting.block_indices
  rw [List.getElem_map, List.getElem_range]

/-- The blocks concatenate, in order, to exactly the positions
`[0, N)`: no gap, no overlap, every position covered once. -/
theorem blocks_flatten (N B : Nat) (hB : 0 < B) :
    (Backtesting.block_indices N B).flatten = List.range N := by
  have hB1 : B - 1 + 1 = B := by omega
  have hsplit : List.range B = List.range (B - 1) ++ [B - 1] := by
    rw [← hB1, List.range_succ, hB1]
  unfold Backtesting.block_indices
  rw [hsplit, List.map_append, List.flatten_append]
  have hmid : (List.range (B - 1)).map (fun i =>
      List.range' (i * (N / B))
        ((if i < B - 1 then (i + 1) * (N / B) else N) - i * (N / B))) =
      (List.range (B - 1)).map (fun i => List.range' (i * (N / B)) (N / B)) := by
    apply List.map_congr_left
    intro i hi
    rw [if_pos (List.mem_range.mp hi)]
    have h1 : (i + 1) * (N / B) - i * (N / B) = N / B := by
      have h2 : (i + 1) * (N / B) = i * (N / B) + N / B := Nat.succ_mul i (N / B)
      generalize ha : (i + 1) * (N / B) = a at h2 ⊢
      generalize hb : i * (N / B) = b at h2 ⊢
      generalize hc : N / B = c at h2 ⊢
      omega
    rw [h1]
  rw [hmid, flatten_map_range']
  simp only [List.map_cons, List.map_nil, List.flatten_cons, List.flatten_nil,
    List.append_nil, if_neg (lt_irrefl (B - 1))]
  have happ := List.range'_append 0 ((B - 1) * (N / B)) (N - (B - 1) * (N / B)) 1
  simp only [one_mul, zero_add] at happ
  rw [happ, List.range_eq_range']
  congr 1
  have hmul : (B - 1) * (N / B) + N / B = B * (N / B) := by
    have h2 : (B - 1 + 1) * (N / B) = (B - 1) * (N / B) + N / B :=
      Nat.succ_mul (B - 1) (N / B)
    rw [hB1] at h2
    exact h2.symm
  have hdm : B * (N / B) + N % B = N := Nat.div_add_mod N B
  generalize hu : (B - 1) * (N / B) = u at hmul ⊢
  generalize ht : B * (N / B) = t at hdm hmul
  generalize hq : N / B = q at hmul
  generalize hr : N % B = r at hdm
  omega

/-- Distinct blocks share no position. -/
theorem blocks_disjoint (N B : Nat) (hB : 0 < B) :
    List.Pairwise List.Disjoint (Backtesting.block_indices N B) := by
  have hnd : (Backtesting.block_indices N B).flatten.Nodup := by
    rw [blocks_flatten N B hB]
    exact List.nodup_range N
  exact (List.nodup_flatten.mp hnd).2

/-- Every non-final block has exactly `N / B` positions. -/
theorem block_size_mid (N B i : Nat) (hi : i < B - 1) :
    ((Backtesting.block_indices N B).getD i []).length = N / B := by
  rw [block_get N B i (by omega), List.length_range', if_pos hi]
  have h2 : (i + 1) * (N / B) = i * (N / B) + N / B := Nat.succ_mul i (N / B)
  generalize ha : (i + 1) * (N / B) = a at h2 ⊢
  generalize hb : i * (N / B) = b at h2 ⊢
  generalize hc : N / B = c at h2 ⊢
  omega

/-- The final block has `N / B` positions plus the whole division
remainder `N % B`. -/
theorem block_size_last (N B : Nat) (hB : 0 < B) :
    ((Backtesting.block_indices N B).getD (B - 1) []).length = N / B + N % B := by
  rw [block_get N B (B - 1) (by omega), List.length_range',
    if_neg (lt_irrefl (B - 1))]
  have hB1 : B - 1 + 1 = B := by omega
  have hmul : (B - 1) * (N / B) + N / B = B * (N / B) := by
    have h2 : (B - 1 + 1) * (N / B) = (B - 1) * (N / B) + N / B :=
      Nat.succ_mul (B - 1) (N / B)
    rw [hB1] at h2
    exact h2.symm
  have hdm : B * (N / B) + N % B = N := Nat.div_add_mod N B
  generalize hu : (B - 1) * (N / B) = u at hmul ⊢
  generalize ht : B * (N / B) = t at hdm hmul
  generalize hq : N / B = q at hmul ⊢
  generalize hr : N % B = r at hdm ⊢
  omega

/-- C4 counterexample: at `N = 8, B = 3` the blocks are sized
`[2, 2, 4]`: the last block absorbs the whole remainder 2, and its size
4 is outside `{⌊8/3⌋, ⌈8/3⌉} = {2, 3}`, refuting the near-equal-size
part of the claim. -/
theorem block_sizes_not_within_one :
    (Backtesting.block_indices 8 3).map List.length = [2, 2, 4] ∧
    ¬(∀ b ∈ Backtesting.block_indices 8 3,
        b.length = 8 / 3 ∨ b.length = (8 + 3 - 1) / 3) := by
  constructor
  · decide
  · decide

/-- C4 amended: for `N ≥ B > 0` the `B` blocks still partition `[0, N)`
exactly — their concatenation is `[0, N)` in order, there are `B` of
them, and they are pairwise disjoint — but the sizes are: `⌊N/B⌋` for
every block except the last, and `⌊N/B⌋ + (N mod B)` for the last block,
which absorbs the whole remainder (so sizes can differ by up to `B - 1`
units, not at most one). -/
theorem block_partition_amended (N B : Nat) (hB : 0 < B) (hBN : B ≤ N) :
    (Backtesting.block_indices N B).flatten = List.range N ∧
    (Backtesting.block_indices N B).length = B ∧
    List.Pairwise List.Disjoint (Backtesting.block_indices N B) ∧
    (∀ i, i < B - 1 → ((Backtesting.block_indices N B).getD i []).length = N / B) ∧
    ((Backtesting.block_indices N B).getD (B - 1) []).length = N / B + N % B :=
  ⟨blocks_flatten N B hB, blocks_length N B, blocks_disjoint N B hB,
    fun i hi => block_size_mid N B i hi, block_size_last N B hB⟩

/-- Witness for C4 amended at `N = 8, B = 3`. -/
theorem block_partition_amended_witness :
    (Backtesting.block_indices 8 3).flatten = List.range 8 ∧
    (Backtesting.block_indices 8 3).length = 3 ∧
    List.Pairwise List.Disjoint (Backtesting.block_indices 8 3) ∧
    (∀ i, i < 3 - 1 → ((Backtesting.block_indices 8 3).getD i []).length = 8 / 3) ∧
    ((Backtesting.block_indices 8 3).getD (3 - 1) []).length = 8 / 3 + 8 % 3 :=
  block_partition_amended 8 3 (by decide) (by decide)

/-- The combination enumerator emits exactly `choose` many subsets. -/
theorem combinations_length : ∀ (l : List Nat) (k : Nat),
    (Backtesting.combinations k l).length = l.length.choose k := by
  intro l
  induction l with
  | nil => intro k; cases k <;> simp [Backtesting.combinations]
  | cons x xs ih =>
    intro k
    cases k with
    | zero => simp [Backtesting.combinations]
    | succ k =>
      simp only [Backtesting.combinations, List.length_append, List.length_map, ih,
        List.length_cons]
      rw [Nat.choose_succ_succ]

/-- Membership in the combination enumerator: exactly the length-`k`
subsequences of the input. -/
theorem mem_combinations : ∀ (l : List Nat) (k : Nat) (c : List Nat),
    c ∈ Backtesting.combinations k l ↔ c.Sublist l ∧ c.length = k := by
  intro l
  induction l with
  | nil =>
    intro k c
    cases k with
    | zero =>
      simp only [Backtesting.combinations, List.mem_singleton, List.sublist_nil,
        List.length_eq_zero]
      constructor
      · rintro rfl; exact ⟨rfl, rfl⟩
      · rintro ⟨rfl, -⟩; rfl
    | succ k =>
      simp only [Backtesting.combinations, List.not_mem_nil, false_iff, not_and,
        List.sublist_nil]
      rintro rfl
      simp
  | cons x xs ih =>
    intro k c
    cases k with
    | zero =>
      simp only [Backtesting.combinations, List.mem_singleton, List.length_eq_zero]
      constructor
      · rintro rfl; exact ⟨List.nil_sublist _, rfl⟩
      · rintro ⟨-, rfl⟩; rfl
    | succ k =>
      simp only [Backtesting.combinations, List.mem_append, List.mem_map, ih]
      constructor
      · rintro (⟨a, ⟨has, hal⟩, rfl⟩ | ⟨hcs, hcl⟩)
        · exact ⟨has.cons₂ x, by simp [hal]⟩
        · exact ⟨hcs.cons x, hcl⟩
      · rintro ⟨hcs, hcl⟩
        rcases List.sublist_cons_iff.mp hcs with hcx | ⟨r, rfl, hr⟩
        · exact Or.inr ⟨hcx, hcl⟩
        · exact Or.inl ⟨r, ⟨hr, by simpa using hcl⟩, rfl⟩

/-- Over a strictly increasing input list, the combination enumerator
emits subsets in strictly increasing lexicographic order (so each subset
appears exactly once, in deterministic order). -/
theorem combinations_pairwise_lex : ∀ (l : List Nat), l.Pairwise (· < ·) →
    ∀ k, (Backtesting.combinations k l).Pairwise (List.Lex (· < ·)) := by
  intro l
  induction l with
  | nil =>
    intro _ k
    cases k <;> simp [Backtesting.combinations]
  | cons x xs ih =>
    intro hp k
    obtain ⟨hx, hxs⟩ := List.pairwise_cons.mp hp
    cases k with
    | zero => simp [Backtesting.combinations]
    | succ k =>
      simp only [Backtesting.combinations]
      rw [List.pairwise_append]
      refine ⟨?_, ih hxs (k + 1), ?_⟩
      · rw [List.pairwise_map]
        exact (ih hxs k).imp (fun h => List.Lex.cons h)
      · intro a ha b hb
        obtain ⟨c, hc, rfl⟩ := List.mem_map.mp ha
        obtain ⟨hbs, hbl⟩ := (mem_combinations xs (k + 1) b).mp hb
        cases b with
        | nil => simp at hbl
        | cons y b2 =>
          have hy : y ∈ xs := hbs.subset (List.mem_cons_self y b2)
          exact List.Lex.rel (hx y hy)

/-- Metadata purging only ever removes rows from the candidate train
array (it is a filter). -/
theorem apply_purging_sublist (tr te : List Nat) (bt : BarrierTimes) :
    (Backtesting.apply_purging tr te bt).Sublist tr := by
  unfold Backtesting.apply_purging
  split
  · exact List.nil_sublist tr
  · exact List.filter_sublist tr

/-- Position-based purging only ever removes rows from the candidate
train array. -/
theorem apply_time_based_purging_sublist (tr te : List Nat) (pw : Int) :
    (Backtesting.apply_time_based_purging tr te pw).Sublist tr := by
  unfold Backtesting.apply_time_based_purging
  split
  · exact List.nil_sublist tr
  · exact List.filter_sublist tr

/-- The embargo only ever removes rows from the train array. -/
theorem apply_embargo_sublist (tr te : List Nat) (ew : Int) :
    (Backtesting.apply_embargo tr te ew).Sublist tr := by
  unfold Backtesting.apply_embargo
  split
  · exact List.filter_sublist tr
  · exact List.nil_sublist tr

/-- Membership in the test array of a candidate fold. -/
theorem mem_CPCV_fold_test (blocks : List (List Nat)) (B : Nat) (tbs : List Nat)
    (p : Nat) :
    p ∈ (Backtesting.CPCV_fold blocks B tbs).2 ↔
      ∃ j ∈ tbs, p ∈ blocks.getD j [] := by
  unfold Backtesting.CPCV_fold
  simp only [List.mem_flatten, List.mem_map]
  constructor
  · rintro ⟨l, ⟨j, hj, rfl⟩, hp⟩
    exact ⟨j, hj, hp⟩
  · rintro ⟨j, hj, hp⟩
    exact ⟨blocks.getD j [], ⟨j, hj, rfl⟩, hp⟩

/-- Membership in the candidate train array of a fold. -/
theorem mem_CPCV_fold_train (blocks : List (List Nat)) (B : Nat) (tbs : List Nat)
    (p : Nat) :
    p ∈ (Backtesting.CPCV_fold blocks B tbs).1 ↔
      ∃ i, i < B ∧ i ∉ tbs ∧ p ∈ blocks.getD i [] := by
  unfold Backtesting.CPCV_fold
  simp only [List.mem_flatten, List.mem_map, List.mem_filter, List.mem_range,
    decide_eq_true_eq]
  constructor
  · rintro ⟨l, ⟨i, ⟨hiB, hin⟩, rfl⟩, hp⟩
    exact ⟨i, hiB, hin, hp⟩
  · rintro ⟨i, hiB, hin, hp⟩
    exact ⟨blocks.getD i [], ⟨i, ⟨hiB, hin⟩, rfl⟩, hp⟩

/-- No position lies in two different blocks. -/
theorem block_disjoint_of_ne (N B i j : Nat) (hB : 0 < B) (hi : i < B) (hj : j < B)
    (hij : i ≠ j) (p : Nat)
    (hpi : p ∈ (Backtesting.block_indices N B).getD i [])
    (hpj : p ∈ (Backtesting.block_indices N B).getD j []) : False := by
  have hlen := blocks_length N B
  have hpd := blocks_disjoint N B hB
  rw [List.pairwise_iff_getElem] at hpd
  have hi2 : i < (Backtesting.block_indices N B).length := by omega
  have hj2 : j < (Backtesting.block_indices N B).length := by omega
  rw [List.getD_eq_getElem _ _ hi2] at hpi
  rw [List.getD_eq_getElem _ _ hj2] at hpj
  rcases Nat.lt_or_ge i j with hlt | hge
  · exact hpd i j hi2 hj2 hlt hpi hpj
  · have hlt2 : j < i := by omega
    exact hpd j i hj2 hi2 hlt2 hpj hpi

/-- The candidate train and test arrays of one combination share no
position. -/
theorem cpcv_candidate_disjoint (N B : Nat) (hB : 0 < B) (tbs : List Nat)
    (htbs : tbs.Sublist (List.range B)) (p : Nat)
    (hp1 : p ∈ (Backtesting.CPCV_fold (Backtesting.block_indices N B) B tbs).1)
    (hp2 : p ∈ (Backtesting.CPCV_fold (Backtesting.block_indices N B) B tbs).2) :
    False := by
  obtain ⟨i, hiB, hin, hpi⟩ := (mem_CPCV_fold_train _ B tbs p).mp hp1
  obtain ⟨j, hj, hpj⟩ := (mem_CPCV_fold_test _ B tbs p).mp hp2
  have hjB : j < B := List.mem_range.mp (htbs.subset hj)
  have hij : i ≠ j := by
    intro he
    exact hin (by rw [he]; exact hj)
  exact block_disjoint_of_ne N B i j hB hiB hjB hij p hpi hpj

/-- C8: every fold yielded by the combinatorial splitter (with or
without interval metadata) has disjoint train and test index sets, and
each of the three filters returns a subsequence of its input train
array — the filters only ever remove positions, never add them. -/
theorem split_leakage_disjoint (B K : Nat) (pw ew : Int) (N : Nat)
    (bt : Option BarrierTimes) (hK : 0 < K) (hKB : K < B) (hBN : B ≤ N) :
    (∀ fold ∈ Backtesting.CPCVSplitter.split B K pw ew N bt,
      ∀ p ∈ fold.1, p ∉ fold.2) ∧
    (∀ tr te bt2, (Backtesting.apply_purging tr te bt2).Sublist tr) ∧
    (∀ tr te pw2, (Backtesting.apply_time_based_purging tr te pw2).Sublist tr) ∧
    (∀ tr te ew2, (Backtesting.apply_embargo tr te ew2).Sublist tr) := by
  refine ⟨?_, apply_purging_sublist, apply_time_based_purging_sublist,
    apply_embargo_sublist⟩
  intro fold hfold p hp1 hp2
  have hB : 0 < B := by omega
  unfold Backtesting.CPCVSplitter.split at hfold
  cases bt with
  | none =>
    simp only [List.mem_map] at hfold
    obtain ⟨tbs, htbs, rfl⟩ := hfold
    simp only at hp1 hp2
    have hcand : p ∈ (Backtesting.CPCV_fold (Backtesting.block_indices N B) B tbs).1 :=
      (apply_time_based_purging_sublist _ _ pw).subset
        ((apply_embargo_sublist _ _ ew).subset hp1)
    exact cpcv_candidate_disjoint N B hB tbs
      ((mem_combinations _ K tbs).mp htbs).1 p hcand hp2
  | some bt0 =>
    simp only [List.mem_map] at hfold
    obtain ⟨tbs, htbs, rfl⟩ := hfold
    simp only at hp1 hp2
    have hcand : p ∈ (Backtesting.CPCV_fold (Backtesting.block_indices N B) B tbs).1 :=
      (apply_purging_sublist _ _ bt0).subset
        ((apply_embargo_sublist _ _ ew).subset hp1)
    exact cpcv_candidate_disjoint N B hB tbs
      ((mem_combinations _ K tbs).mp htbs).1 p hcand hp2

/-- Witness for C8 at Scenario A geometry (`B = 5, K = 1, N = 100`)
with no metadata. -/
theorem split_leakage_disjoint_witness :
    (∀ fold ∈ Backtesting.CPCVSplitter.split 5 1 5 3 100 none,
      ∀ p ∈ fold.1, p ∉ fold.2) ∧
    (∀ tr te bt2, (Backtesting.apply_purging tr te bt2).Sublist tr) ∧
    (∀ tr te pw2, (Backtesting.apply_time_based_purging tr te pw2).Sublist tr) ∧
    (∀ tr te ew2, (Backtesting.apply_embargo tr te ew2).Sublist tr) :=
  split_leakage_disjoint 5 1 5 3 100 none (by decide) (by decide) (by decide)

/-- C3: for any valid configuration the combinatorial splitter yields
exactly `C(B, K)` folds — one per size-`K` subset of block indices —
whose test sets follow the combination enumerator's output order; that
enumerator emits exactly the size-`K` subsets of `0..B-1`, in strictly
increasing lexicographic order.  At `N = 100, B = 5, K = 1` this gives 5
folds, each with test size 20 and candidate train size 80 before
filtering. -/
theorem cpcv_fold_enumeration (B K : Nat) (pw ew : Int) (N : Nat)
    (bt : Option BarrierTimes) (hK : 0 < K) (hKB : K < B) (hBN : B ≤ N) :
    ((Backtesting.CPCVSplitter.split B K pw ew N bt).length = B.choose K ∧
      (Backtesting.CPCVSplitter.split B K pw ew N bt).map Prod.snd =
        (Backtesting.combinations K (List.range B)).map
          (fun tbs => (Backtesting.CPCV_fold (Backtesting.block_indices N B) B tbs).2) ∧
      (∀ tbs, tbs ∈ Backtesting.combinations K (List.range B) ↔
        tbs.Sublist (List.range B) ∧ tbs.length = K) ∧
      (Backtesting.combinations K (List.range B)).Pairwise (List.Lex (· < ·))) ∧
    ((Backtesting.CPCVSplitter.split 5 1 5 3 100 none).length = 5 ∧
      ∀ tbs ∈ Backtesting.combinations 1 (List.range 5),
        (Backtesting.CPCV_fold (Backtesting.block_indices 100 5) 5 tbs).2.length = 20 ∧
        (Backtesting.CPCV_fold (Backtesting.block_indices 100 5) 5 tbs).1.length = 80) := by
  refine ⟨⟨?_, ?_, fun tbs => mem_combinations _ K tbs,
      combinations_pairwise_lex _ (List.pairwise_lt_range B) K⟩, by decide, by decide⟩
  · unfold Backtesting.CPCVSplitter.split
    rw [List.length_map, combinations_length, List.length_range]
  · unfold Backtesting.CPCVSplitter.split
    rw [List.map_map]
    rfl

/-- Witness for C3 at Scenario A (`B = 5, K = 1, N = 100`). -/
theorem cpcv_fold_enumeration_witness :
    ((Backtesting.CPCVSplitter.split 5 1 5 3 100 none).length = Nat.choose 5 1 ∧
      (Backtesting.CPCVSplitter.split 5 1 5 3 100 none).map Prod.snd =
        (Backtesting.combinations 1 (List.range 5)).map
          (fun tbs => (Backtesting.CPCV_fold (Backtesting.block_indices 100 5) 5 tbs).2) ∧
      (∀ tbs, tbs ∈ Backtesting.combinations 1 (List.range 5) ↔
        tbs.Sublist (List.range 5) ∧ tbs.length = 1) ∧
      (Backtesting.combinations 1 (List.range 5)).Pairwise (List.Lex (· < ·))) ∧
    ((Backtesting.CPCVSplitter.split 5 1 5 3 100 none).length = 5 ∧
      ∀ tbs ∈ Backtesting.combinations 1 (List.range 5),
        (Backtesting.CPCV_fold (Backtesting.block_indices 100 5) 5 tbs).2.length = 20 ∧
        (Backtesting.CPCV_fold (Backtesting.block_indices 100 5) 5 tbs).1.length = 80) :=
  cpcv_fold_enumeration 5 1 5 3 100 none (by decide) (by decide) (by decide)

/-- Membership after position-based purging: the retained positions are
the train rows strictly below `min(test) - purge_window`. -/
theorem mem_time_purging (tr te : List Nat) (pw : Int) (p : Nat) :
    p ∈ Backtesting.apply_time_based_purging tr te pw ↔
      ∃ m, te.min? = some m ∧ p ∈ tr ∧ (p : Int) < (m : Int) - pw := by
  unfold Backtesting.apply_time_based_purging
  cases h : te.min? with
  | none => simp
  | some m =>
    simp only [List.mem_filter, decide_eq_true_eq, Option.some.injEq]
    constructor
    · rintro ⟨hptr, hlt⟩
      exact ⟨m, rfl, hptr, hlt⟩
    · rintro ⟨m2, rfl, hptr, hlt⟩
      exact ⟨hptr, hlt⟩

/-- C9: in the position-based fallback mode every retained train
position lies strictly below `min(test) - purge_window`; consequently
(for the nonnegative windows the configuration intends) the embargo is
the identity on an already time-purged train set — its post-test retain
branch is unreachable — and every fold of the composed metadata-free
pipeline has its final train set entirely before the test window. -/
theorem fallback_train_one_sided (B K : Nat) (pw ew : Int) (N : Nat)
    (hpw : 0 ≤ pw) (hew : 0 ≤ ew) :
    (∀ tr te, Backtesting.apply_embargo
        (Backtesting.apply_time_based_purging tr te pw) te ew =
        Backtesting.apply_time_based_purging tr te pw) ∧
    (∀ tr te p, p ∈ Backtesting.apply_time_based_purging tr te pw →
      ∀ q ∈ te, (p : Int) < (q : Int) - pw) ∧
    (∀ fold ∈ Backtesting.CPCVSplitter.split B K pw ew N none,
      ∀ p ∈ fold.1, ∀ q ∈ fold.2,
        (p : Int) < (q : Int) - pw ∧ ¬((p : Int) > (q : Int) + ew)) := by
  have hmain : ∀ tr te (p : Nat), p ∈ Backtesting.apply_time_based_purging tr te pw →
      ∀ q ∈ te, (p : Int) < (q : Int) - pw := by
    intro tr te p hp q hq
    obtain ⟨m, hm, hptr, hlt⟩ := (mem_time_purging tr te pw p).mp hp
    have hmq : m ≤ q := (List.min?_eq_some_iff'.mp hm).2 q hq
    have hmq2 : (m : Int) ≤ (q : Int) := by exact_mod_cast hmq
    omega
  refine ⟨?_, hmain, ?_⟩
  · intro tr te
    cases hmn : te.min? with
    | none =>
      have hte : te = [] := by
        cases te with
        | nil => rfl
        | cons a l => simp [List.min?_cons] at hmn
      subst hte
      rfl
    | some m =>
      cases hmx : te.max? with
      | none =>
        have hte : te = [] := by
          cases te with
          | nil => rfl
          | cons a l => simp [List.max?_cons] at hmx
        subst hte
        simp at hmn
      | some mx =>
        unfold Backtesting.apply_embargo
        rw [hmx, hmn]
        apply List.filter_eq_self.mpr
        intro p hp
        have hlt := hmain tr te p hp m ((List.min?_eq_some_iff'.mp hmn).1)
        simp only [decide_eq_true_eq]
        left
        omega
  · intro fold hfold p hp q hq
    unfold Backtesting.CPCVSplitter.split at hfold
    simp only [List.mem_map] at hfold
    obtain ⟨tbs, htbs, rfl⟩ := hfold
    simp only at hp hq
    have hpur : p ∈ Backtesting.apply_time_based_purging
        (Backtesting.CPCV_fold (Backtesting.block_indices N B) B tbs).1
        (Backtesting.CPCV_fold (Backtesting.block_indices N B) B tbs).2 pw :=
      (apply_embargo_sublist _ _ ew).subset hp
    have hlt := hmain _ _ p hpur q hq
    exact ⟨hlt, by omega⟩

/-- Witness for C9 at Scenario A geometry with the default windows. -/
theorem fallback_train_one_sided_witness :
    (∀ tr te, Backtesting.apply_embargo
        (Backtesting.apply_time_based_purging tr te 5) te 3 =
        Backtesting.apply_time_based_purging tr te 5) ∧
    (∀ tr te p, p ∈ Backtesting.apply_time_based_purging tr te 5 →
      ∀ q ∈ te, (p : Int) < (q : Int) - 5) ∧
    (∀ fold ∈ Backtesting.CPCVSplitter.split 5 1 5 3 100 none,
      ∀ p ∈ fold.1, ∀ q ∈ fold.2,
        (p : Int) < (q : Int) - 5 ∧ ¬((p : Int) > (q : Int) + 3)) :=
  fallback_train_one_sided 5 1 5 3 100 (by decide) (by decide)

/-- Head of a nonempty position range. -/
theorem headD_range' (s n : Nat) (hn : 0 < n) : (List.range' s n).headD 0 = s := by
  cases n with
  | zero => omega
  | succ m => rw [List.range'_succ]; rfl

/-- Every fold of the backward while-loop splitter is contiguous: a
width-`batch_unit` train range immediately followed by a
width-`horizon` test range. -/
theorem splitLatest_shape (b h : Nat) : ∀ ce, ∀ f ∈ RollingHorizon.splitLatest b h ce,
    ∃ s, f = (List.range' s b, List.range' (s + b) h) := by
  intro ce
  induction ce using Nat.strong_induction_on with
  | _ ce ih =>
    rw [RollingHorizon.splitLatest]
    split
    · rename_i hc
      intro f hf
      rcases List.mem_cons.mp hf with rfl | hf2
      · refine ⟨ce - h - b, ?_⟩
        have he : ce - h - b + b = ce - h := by omega
        rw [he]
      · exact ih (ce - h - b) (by omega) f hf2
    · intro f hf
      simp at hf

/-- Consecutive folds of the backward while-loop splitter are offset by
`batch_unit + horizon` positions (the loop jumps to `train_start`), not
by `horizon`. -/
theorem splitLatest_chain (b h : Nat) (hh : 0 < h) : ∀ ce,
    List.Chain' (fun f g => f.2.headD 0 = g.2.headD 0 + (b + h))
      (RollingHorizon.splitLatest b h ce) := by
  intro ce
  induction ce using Nat.strong_induction_on with
  | _ ce ih =>
    rw [RollingHorizon.splitLatest]
    split
    · rename_i hc
      rw [List.chain'_cons']
      refine ⟨?_, ih (ce - h - b) (by omega)⟩
      intro g hg
      rw [RollingHorizon.splitLatest] at hg
      split at hg
      · rename_i hc2
        simp only [List.head?_cons, Option.mem_def, Option.some.injEq] at hg
        subst hg
        simp only
        rw [headD_range' _ _ hh, headD_range' _ _ hh]
        omega
      · simp at hg
    · exact List.chain'_nil

/-- Every fold of the forward while-loop splitter is contiguous. -/
theorem splitOldest_shape (b h N : Nat) : ∀ cs,
    ∀ f ∈ RollingHorizon.splitOldest b h N cs,
      ∃ s, f = (List.range' s b, List.range' (s + b) h) := by
  have key : ∀ k cs, N - cs ≤ k → ∀ f ∈ RollingHorizon.splitOldest b h N cs,
      ∃ s, f = (List.range' s b, List.range' (s + b) h) := by
    intro k
    induction k with
    | zero =>
      intro cs hk
      rw [RollingHorizon.splitOldest]
      split
      · rename_i hc
        exact absurd hc (by omega)
      · intro f hf
        simp at hf
    | succ k ih =>
      intro cs hk
      rw [RollingHorizon.splitOldest]
      split
      · rename_i hc
        intro f hf
        rcases List.mem_cons.mp hf with rfl | hf2
        · exact ⟨cs, rfl⟩
        · exact ih (cs + b + h) (by omega) f hf2
      · intro f hf
        simp at hf
  intro cs
  exact key (N - cs) cs (le_refl _)

/-- Consecutive folds of the forward while-loop splitter are offset by
`batch_unit + horizon` positions (the loop jumps to `test_end`). -/
theorem splitOldest_chain (b h N : Nat) (hh : 0 < h) : ∀ cs,
    List.Chain' (fun f g => g.2.headD 0 = f.2.headD 0 + (b + h))
      (RollingHorizon.splitOldest b h N cs) := by
  have key : ∀ k cs, N - cs ≤ k →
      List.Chain' (fun f g => g.2.headD 0 = f.2.headD 0 + (b + h))
        (RollingHorizon.splitOldest b h N cs) := by
    intro k
    induction k with
    | zero =>
      intro cs hk
      rw [RollingHorizon.splitOldest]
      split
      · rename_i hc
        exact absurd hc (by omega)
      · exact List.chain'_nil
    | succ k ih =>
      intro cs hk
      rw [RollingHorizon.splitOldest]
      split
      · rename_i hc
        rw [List.chain'_cons']
        refine ⟨?_, ih (cs + b + h) (by omega)⟩
        intro g hg
        rw [RollingHorizon.splitOldest] at hg
        split at hg
        · rename_i hc2
          simp only [List.head?_cons, Option.mem_def, Option.some.injEq] at hg
          subst hg
          simp only
          rw [headD_range' _ _ hh, headD_range' _ _ hh]
          omega
        · simp at hg
      · exact List.chain'_nil
  intro cs
  exact key (N - cs) cs (le_refl _)

/-- The backward start positions of data_splitter.py descend by exactly
`step` each time. -/
theorem range_down_chain (step : Nat) : ∀ st,
    List.Chain' (fun a c => a = c + step) (DataSplitter.range_down step st) := by
  intro st
  induction st using Nat.strong_induction_on with
  | _ st ih =>
    rw [DataSplitter.range_down]
    split
    · rename_i hs
      by_cases hss : step ≤ st
      · rw [dif_pos hss, List.chain'_cons']
        constructor
        · intro y hy
          rw [DataSplitter.range_down, dif_pos hs] at hy
          simp only [List.head?_cons, Option.mem_def, Option.some.injEq] at hy
          subst hy
          omega
        · exact ih (st - step) (by omega)
      · rw [dif_neg hss]
        exact List.chain'_singleton st
    · exact List.chain'_nil

/-- The forward start positions climb by exactly `step` each time. -/
theorem range'_chain (step : Nat) : ∀ n s,
    List.Chain' (fun a c => c = a + step) (List.range' s n step) := by
  intro n
  induction n with
  | zero => intro s; simp
  | succ m ih =>
    intro s
    rw [List.range'_succ, List.chain'_cons']
    refine ⟨?_, ih (s + step)⟩
    intro y hy
    cases m with
    | zero => simp at hy
    | succ m2 =>
      rw [List.range'_succ] at hy
      simp only [List.head?_cons, Option.mem_def, Option.some.injEq] at hy
      omega

/-- Successful output of the data_splitter.py splitter, in closed form:
one contiguous fold per start position. -/
theorem ds_split_ok (b h : Nat) (lf : Bool) (N : Nat)
    (folds : List (List Nat × List Nat))
    (hok : DataSplitter.RollingHorizonSplitter.split b h lf N = .ok folds) :
    folds = (if lf then DataSplitter.range_down h (N - (b + h))
        else List.range' 0 ((N - (b + h)) / h + 1) h).map
      (fun s => (List.range' s b, List.range' (s + b) h)) := by
  unfold DataSplitter.RollingHorizonSplitter.split at hok
  split at hok
  · exact absurd hok (by simp)
  · simp only [Except.ok.injEq] at hok
    exact hok.symm

/-- C5 counterexample: on Scenario D (`N = 210, batch_unit = 200,
horizon = 5, latest_first = true`) the rolling_horizon_splitter.py
engine yields exactly one fold — train `[5, 205)`, test `[205, 210)` —
not the claimed two: after the first fold its loop jumps back by
`batch_unit + horizon = 205` positions, not by `horizon = 5`. -/
theorem rolling_scenario_one_fold :
    RollingHorizon.RollingHorizonSplitter.split 200 5 true 210 =
      [(List.range' 5 200, List.range' 205 5)] ∧
    (RollingHorizon.RollingHorizonSplitter.split 200 5 true 210).length ≠ 2 := by
  have h1 : RollingHorizon.RollingHorizonSplitter.split 200 5 true 210 =
      [(List.range' 5 200, List.range' 205 5)] := by
    simp [RollingHorizon.RollingHorizonSplitter.split, RollingHorizon.splitLatest]
  exact ⟨h1, by rw [h1]; decide⟩

/-- C5 amended: every fold of either rolling engine is contiguous — a
width-`batch_unit` train range immediately followed by a
width-`horizon` test range.  Consecutive folds of the data_splitter.py
engine are offset by exactly `horizon` positions (descending for
`latest_first`, ascending otherwise), and it yields the two Scenario D
folds as claimed; consecutive folds of the rolling_horizon_splitter.py
engine are instead offset by `batch_unit + horizon` positions, and it
yields only the first Scenario D fold. -/
theorem rolling_geometry_amended :
    (∀ b h N folds, 0 < h →
      DataSplitter.RollingHorizonSplitter.split b h true N = .ok folds →
      (∀ f ∈ folds, ∃ s, f = (List.range' s b, List.range' (s + b) h)) ∧
      List.Chain' (fun f g => f.2.headD 0 = g.2.headD 0 + h) folds) ∧
    (∀ b h N folds, 0 < h →
      DataSplitter.RollingHorizonSplitter.split b h false N = .ok folds →
      (∀ f ∈ folds, ∃ s, f = (List.range' s b, List.range' (s + b) h)) ∧
      List.Chain' (fun f g => g.2.headD 0 = f.2.headD 0 + h) folds) ∧
    (∀ b h ce, 0 < h →
      (∀ f ∈ RollingHorizon.splitLatest b h ce,
        ∃ s, f = (List.range' s b, List.range' (s + b) h)) ∧
      List.Chain' (fun f g => f.2.headD 0 = g.2.headD 0 + (b + h))
        (RollingHorizon.splitLatest b h ce)) ∧
    (∀ b h N cs, 0 < h →
      (∀ f ∈ RollingHorizon.splitOldest b h N cs,
        ∃ s, f = (List.range' s b, List.range' (s + b) h)) ∧
      List.Chain' (fun f g => g.2.headD 0 = f.2.headD 0 + (b + h))
        (RollingHorizon.splitOldest b h N cs)) ∧
    (DataSplitter.RollingHorizonSplitter.split 200 5 true 210 =
      .ok [(List.range' 5 200, List.range' 205 5),
        (List.range' 0 200, List.range' 200 5)]) ∧
    (RollingHorizon.RollingHorizonSplitter.split 200 5 true 210 =
      [(List.range' 5 200, List.range' 205 5)]) := by
  refine ⟨?_, ?_, ?_, ?_, ?_, ?_⟩
  · intro b h N folds hh hok
    rw [ds_split_ok b h true N folds hok]
    rw [if_pos rfl]
    constructor
    · intro f hf
      obtain ⟨s, hs, rfl⟩ := List.mem_map.mp hf
      exact ⟨s, rfl⟩
    · rw [List.chain'_map]
      refine (range_down_chain h (N - (b + h))).imp ?_
      intro a c hac
      simp only
      rw [headD_range' _ _ hh, headD_range' _ _ hh]
      omega
  · intro b h N folds hh hok
    rw [ds_split_ok b h false N folds hok]
    rw [if_neg Bool.false_ne_true]
    constructor
    · intro f hf
      obtain ⟨s, hs, rfl⟩ := List.mem_map.mp hf
      exact ⟨s, rfl⟩
    · rw [List.chain'_map]
      refine (range'_chain h ((N - (b + h)) / h + 1) 0).imp ?_
      intro a c hac
      simp only
      rw [headD_range' _ _ hh, headD_range' _ _ hh]
      omega
  · intro b h ce hh
    exact ⟨splitLatest_shape b h ce, splitLatest_chain b h hh ce⟩
  · intro b h N cs hh
    exact ⟨splitOldest_shape b h N cs, splitOldest_chain b h N hh cs⟩
  · simp [DataSplitter.RollingHorizonSplitter.split, DataSplitter.range_down]
  · simp [RollingHorizon.RollingHorizonSplitter.split, RollingHorizon.splitLatest]

/-- Witness for C5 amended: the rolling_horizon_splitter.py engine's
contiguity and `batch_unit + horizon` offset at Scenario D inputs. -/
theorem rolling_geometry_amended_witness :
    (∀ f ∈ RollingHorizon.splitLatest 200 5 210,
      ∃ s, f = (List.range' s 200, List.range' (s + 200) 5)) ∧
    List.Chain' (fun f g => f.2.headD 0 = g.2.headD 0 + (200 + 5))
      (RollingHorizon.splitLatest 200 5 210) :=
  rolling_geometry_amended.2.2.1 200 5 210 (by decide)
